import Mathlib

/-!
Verification of `scripts/summarize_slither.py`.

The script reads a Slither JSON report, trims oversized `lines` arrays,
and writes three artifacts: a trimmed JSON report, a Markdown summary and
a CSV of per-detector counts.  We embed the parsed JSON data model and the
script's transformations as executable Lean definitions and prove the
specified properties about them.

Modelling conventions:
* Parsed JSON values (Python objects produced by `json.load`) are `JVal`.
  Python `None` and JSON `null` are both `JVal.null`, which also encodes
  the result of `dict.get` on a missing key (Python returns `None` there).
* JSON numbers are modelled as integers (the script never does arithmetic
  on report values, only on list lengths).
* Python dicts are association lists in insertion order; `d[k] = v`
  replaces the value in place when the key is present and appends
  otherwise, exactly like CPython's ordered dicts.
-/

inductive JVal where
  | null : JVal
  | bool (b : Bool) : JVal
  | num (n : Int) : JVal
  | str (s : String) : JVal
  | arr (elems : List JVal) : JVal
  | obj (fields : List (String × JVal)) : JVal
mutual

/-- Structural equality test for `JVal` (Python `==` on JSON trees), written
as mutual structural recursion so that it evaluates inside the kernel. -/
def jbeq : JVal → JVal → Bool
  | .null, .null => true
  | .bool a, .bool b => a == b
  | .num a, .num b => a == b
  | .str a, .str b => a == b
  | .arr xs, .arr ys => jbeqL xs ys
  | .obj fs, .obj gs => jbeqO fs gs
  | _, _ => false

def jbeqL : List JVal → List JVal → Bool
  | [], [] => true
  | x :: xs, y :: ys => jbeq x y && jbeqL xs ys
  | _, _ => false

def jbeqO : List (String × JVal) → List (String × JVal) → Bool
  | [], [] => true
  | (k, x) :: xs, (l, y) :: ys => k == l && jbeq x y && jbeqO xs ys
  | _, _ => false

end

theorem jbeq_iff_eq (a b : JVal) : jbeq a b = true ↔ a = b := by
  refine jbeq.induct
    (fun a b => jbeq a b = true ↔ a = b)
    (fun fs gs => jbeqO fs gs = true ↔ fs = gs)
    (fun xs ys => jbeqL xs ys = true ↔ xs = ys)
    ?_ ?_ ?_ ?_ ?_ ?_ ?_ ?_ ?_ ?_ ?_ ?_ ?_ a b
  · simp [jbeq]
  · intro a b; simp [jbeq]
  · intro a b; simp [jbeq]
  · intro a b; simp [jbeq]
  · intro xs ys ih; simpa [jbeq] using ih
  · intro fs gs ih; simpa [jbeq] using ih
  · intro t x h1 h2 h3 h4 h5 h6
    cases t <;> cases x <;>
      first
        | exact (h1 rfl rfl).elim
        | exact (h2 _ _ rfl rfl).elim
        | exact (h3 _ _ rfl rfl).elim
        | exact (h4 _ _ rfl rfl).elim
        | exact (h5 _ _ rfl rfl).elim
        | exact (h6 _ _ rfl rfl).elim
        | simp [jbeq]
  · simp [jbeqL]
  · intro x xs y ys ih1 ih2; simp [jbeqL, ih1, ih2]
  · intro t x h1 h2
    cases t <;> cases x <;>
      first
        | exact (h1 rfl rfl).elim
        | exact (h2 _ _ _ _ rfl rfl).elim
        | simp [jbeqL]
  · simp [jbeqO]
  · intro k x xs l y ys ih1 ih2; simp [jbeqO, ih1, ih2]
  · intro t x h1 h2
    cases t <;> cases x <;>
      first
        | exact (h1 rfl rfl).elim
        | exact (h2 _ _ _ _ _ _ rfl rfl).elim
        | simp [jbeqO]

instance : DecidableEq JVal := fun a b =>
  decidable_of_iff (jbeq a b = true) (jbeq_iff_eq a b)

namespace JVal

/-- Python truthiness for the values above (`if x:`). -/
def pyTruthy : JVal → Bool
  | .null => false
  | .bool b => b
  | .num n => decide (n ≠ 0)
  | .str s => decide (s ≠ "")
  | .arr xs => !xs.isEmpty
  | .obj fs => !fs.isEmpty

/-- `fs.get(k)` on a dict's field list: the value at the first matching key,
`None` (here `null`) when the key is absent. -/
def objGet (fs : List (String × JVal)) (k : String) : JVal :=
  match fs with
  | [] => .null
  | p :: ps => if p.1 = k then p.2 else objGet ps k

/-- `v.get(k)`: defined on dicts; on other values Python raises, we return null. -/
def pyGet : JVal → String → JVal
  | .obj fs, k => objGet fs k
  | _, _ => .null

/-- `d[k] = v` on a dict's field list: replace in place or append. -/
def setKey (fs : List (String × JVal)) (k : String) (v : JVal) :
    List (String × JVal) :=
  if fs.any (fun p => decide (p.1 = k)) then
    fs.map (fun p => if p.1 = k then (p.1, v) else p)
  else fs ++ [(k, v)]

end JVal

open JVal

/-- `summarize_lines(lines)` from the script: non-lists pass through; a list
of length `n ≤ 10` becomes `{count: n, lines_preview: lines}`; a longer list
becomes `{count: n, first: lines[:5], last: lines[-5:]}`. -/
def summarize_lines (lines : JVal) : JVal :=
  match lines with
  | .arr xs =>
      if xs.length ≤ 10 then
        .obj [("count", .num xs.length), ("lines_preview", .arr xs)]
      else
        .obj [("count", .num xs.length),
              ("first", .arr (xs.take 5)),
              ("last", .arr (xs.drop (xs.length - 5)))]
  | v => v

/-- The last five elements of a list, written independently of the script's
`lines[-5:]` slice (which we embedded as `drop (length - 5)`). -/
def lastFive (xs : List JVal) : List JVal :=
  (xs.reverse.take 5).reverse

theorem lastFive_eq_drop (xs : List JVal) :
    lastFive xs = xs.drop (xs.length - 5) := by
  unfold lastFive
  rw [← List.rtake_eq_reverse_take_reverse, List.rtake]

/-- C1: for a `lines` list of length `n`, `summarize_lines` returns, when
`n ≤ 10`, a record with `count = n` and `lines_preview` equal to the original
list; when `n > 10`, a record with `count = n`, `first` the first 5 elements,
`last` the last 5 elements, and no other field carrying line data (the
equalities exhibit the full field list of the result record). -/
theorem summarize_lines_length_invariant (xs : List JVal) :
    (xs.length ≤ 10 →
      summarize_lines (.arr xs) =
        .obj [("count", .num xs.length), ("lines_preview", .arr xs)]) ∧
    (10 < xs.length →
      summarize_lines (.arr xs) =
        .obj [("count", .num xs.length),
              ("first", .arr (xs.take 5)),
              ("last", .arr (lastFive xs))]) := by
  constructor
  · intro h
    simp [summarize_lines, h]
  · intro h
    have h' : ¬ xs.length ≤ 10 := by omega
    rw [lastFive_eq_drop]
    simp [summarize_lines, h']

/-- A concrete 12-element lines list used to exercise the `n > 10` branch. -/
def twelveLines : List JVal := (List.range 12).map fun n => JVal.num n

theorem summarize_lines_length_invariant_witness :
    (summarize_lines (.arr [.num 4, .num 7]) =
      .obj [("count", .num 2), ("lines_preview", .arr [.num 4, .num 7])]) ∧
    (summarize_lines (.arr twelveLines) =
      .obj [("count", .num twelveLines.length),
            ("first", .arr (twelveLines.take 5)),
            ("last", .arr (lastFive twelveLines))]) :=
  ⟨(summarize_lines_length_invariant [.num 4, .num 7]).1 (by decide),
   (summarize_lines_length_invariant twelveLines).2 (by decide)⟩

/-- C6: `summarize_lines` returns any non-list value (in particular an
already-trimmed summary record) unchanged, is idempotent, and alters a value
only when that value is a raw list. -/
theorem summarize_lines_only_alters_raw_lists (v : JVal) :
    ((∀ xs : List JVal, v ≠ .arr xs) → summarize_lines v = v) ∧
    summarize_lines (summarize_lines v) = summarize_lines v ∧
    (summarize_lines v ≠ v → ∃ xs, v = .arr xs) := by
  refine ⟨?_, ?_, ?_⟩
  · intro h
    match v with
    | .null | .bool _ | .num _ | .str _ | .obj _ => rfl
    | .arr xs => exact absurd rfl (h xs)
  · match v with
    | .null | .bool _ | .num _ | .str _ | .obj _ => rfl
    | .arr xs =>
        by_cases h : xs.length ≤ 10 <;> simp [summarize_lines, h]
  · intro h
    match v with
    | .null | .bool _ | .num _ | .str _ | .obj _ => exact absurd rfl h
    | .arr xs => exact ⟨xs, rfl⟩

theorem summarize_lines_only_alters_raw_lists_witness :
    (summarize_lines
        (.obj [("count", .num 3), ("lines_preview", .arr [.num 1])]) =
      .obj [("count", .num 3), ("lines_preview", .arr [.num 1])]) ∧
    (∃ xs, (JVal.arr []) = JVal.arr xs) :=
  ⟨(summarize_lines_only_alters_raw_lists _).1 (fun _ h => by cases h),
   (summarize_lines_only_alters_raw_lists (.arr [])).2.2 (by decide)⟩

/-! ## The aggregation pass -/

/-- `det.get('check') or 'unknown'`. -/
def checkOf (det : JVal) : JVal :=
  let c := det.pyGet "check"
  if pyTruthy c then c else .str "unknown"

/-- `det.get('impact') or ''`. -/
def impactOf (det : JVal) : JVal :=
  let v := det.pyGet "impact"
  if pyTruthy v then v else .str ""

/-- `det.get('confidence') or ''`. -/
def confidenceOf (det : JVal) : JVal :=
  let v := det.pyGet "confidence"
  if pyTruthy v then v else .str ""

/-- `Counter` as an insertion-ordered association list; `c[k] += 1`
increments in place when the key is present and appends `(k, 1)` otherwise
(a missing `Counter` key counts as 0). -/
def cIncr : List (JVal × Nat) → JVal → List (JVal × Nat)
  | [], k => [(k, 1)]
  | p :: ps, k => if p.1 = k then (p.1, p.2 + 1) :: ps else p :: cIncr ps k

/-- `defaultdict(Counter)`: `t[k][v] += 1` inserts a fresh counter for a new
outer key. -/
def ccIncr : List (JVal × List (JVal × Nat)) → JVal → JVal →
    List (JVal × List (JVal × Nat))
  | [], k, v => [(k, cIncr [] v)]
  | p :: ps, k, v =>
      if p.1 = k then (p.1, cIncr p.2 v) :: ps else p :: ccIncr ps k v

/-- `defaultdict(list)` update for `top_examples`: a fresh key gets `[det]`
(the defaultdict inserts `[]`, whose length 0 is `< 3`, and the original
finding is appended); an existing key appends only while fewer than 3
examples are stored. -/
def texUpd : List (JVal × List JVal) → JVal → JVal → List (JVal × List JVal)
  | [], k, det => [(k, [det])]
  | p :: ps, k, det =>
      if p.1 = k then (p.1, if p.2.length < 3 then p.2 ++ [det] else p.2) :: ps
      else p :: texUpd ps k det

/-- Lookup in an association list keyed by `JVal`. -/
def aGet {α : Type} : List (JVal × α) → JVal → Option α
  | [], _ => none
  | p :: ps, k => if p.1 = k then some p.2 else aGet ps k

/-- Lookup with a default value. -/
def aGetD {α : Type} (t : List (JVal × α)) (k : JVal) (d : α) : α :=
  match aGet t k with
  | some v => v
  | none => d

/-- `v[k] = x` on a `JVal` that is a dict; other values pass through
(Python would have raised before reaching such an assignment). -/
def setKeyV (v : JVal) (k : String) (x : JVal) : JVal :=
  match v with
  | .obj fs => .obj (setKey fs k x)
  | w => w

/-- The per-element trimming step of the loop body: copy the element, replace
`source_mapping.lines` by its summary when `source_mapping` is a dict whose
`lines` value is not `None`, and independently replace
`type_specific_fields.parent.source_mapping.lines` when that nested chain is
made of dicts and the innermost dict has a `lines` key.  A non-dict element
would make Python's `dict(e)` raise; the value model returns it unchanged. -/
def trimElem (e : JVal) : JVal :=
  let e1 :=
    match e.pyGet "source_mapping" with
    | .obj smFs =>
        if objGet smFs "lines" ≠ JVal.null then
          setKeyV e "source_mapping"
            (.obj (setKey smFs "lines" (summarize_lines (objGet smFs "lines"))))
        else e
    | _ => e
  let tsf :=
    let t := e1.pyGet "type_specific_fields"
    if pyTruthy t then t else JVal.obj []
  match tsf with
  | .obj tsfFs =>
      match objGet tsfFs "parent" with
      | .obj pFs =>
          match objGet pFs "source_mapping" with
          | .obj psmFs =>
              if psmFs.any (fun p => decide (p.1 = "lines")) then
                setKeyV e1 "type_specific_fields"
                  (.obj (setKey tsfFs "parent"
                    (.obj (setKey pFs "source_mapping"
                      (.obj (setKey psmFs "lines"
                        (summarize_lines (objGet psmFs "lines"))))))))
              else e1
          | _ => e1
      | _ => e1
  | _ => e1

/-- The per-finding trimming step: copy the finding, trim every element of
`elements` (`det_copy.get('elements') or []`), and store the new element list
back under `elements` (the assignment happens even when the list was absent).
A non-dict finding or a truthy non-list `elements` value would make Python
raise; the value model totalizes those cases. -/
def trimDet (det : JVal) : JVal :=
  match det with
  | .obj _ =>
      let elemsV :=
        let v := det.pyGet "elements"
        if pyTruthy v then v else JVal.arr []
      let es := match elemsV with | .arr xs => xs | _ => []
      setKeyV det "elements" (.arr (es.map trimElem))
  | v => v

/-- The state built by the single pass over the findings: the four derived
structures plus the trimmed findings sequence, mirroring the script's
`counts`, `impact_counts`, `confidence_counts`, `top_examples` and
`trimmed_detectors`. -/
structure Agg where
  counts : List (JVal × Nat)
  impact_counts : List (JVal × List (JVal × Nat))
  confidence_counts : List (JVal × List (JVal × Nat))
  top_examples : List (JVal × List JVal)
  trimmed_detectors : List JVal
deriving DecidableEq

/-- One iteration of `for det in detectors`. -/
def aggStep (a : Agg) (det : JVal) : Agg :=
  let check := checkOf det
  { counts := cIncr a.counts check
    impact_counts := ccIncr a.impact_counts check (impactOf det)
    confidence_counts := ccIncr a.confidence_counts check (confidenceOf det)
    top_examples := texUpd a.top_examples check det
    trimmed_detectors := a.trimmed_detectors ++ [trimDet det] }

/-- The whole aggregation pass, starting from empty containers. -/
def aggregate (dets : List JVal) : Agg :=
  dets.foldl aggStep ⟨[], [], [], [], []⟩

/-! ## Loader -/

/-- `results = data.get('results') or {}`. -/
def resolveResults (data : JVal) : JVal :=
  let r := data.pyGet "results"
  if pyTruthy r then r else .obj []

/-- `detectors = results.get('detectors') if isinstance(results, dict) else
results`; `JVal.null` encodes the `None` result of a missing key. -/
def resolveDetectors (data : JVal) : JVal :=
  match resolveResults data with
  | .obj fs => objGet fs "detectors"
  | v => v

/-- The findings list actually iterated: the resolved value when it is a
list, empty otherwise (non-list iterable resolved values either iterate to
scalars, which crash the loop body, or are empty). -/
def detListOf (data : JVal) : List JVal :=
  match resolveDetectors data with
  | .arr xs => xs
  | _ => []

/-! ## Trimmed-report writer -/

/-- `trimmed = dict(data); trimmed_results = dict(results) if
isinstance(results, dict) else {}; trimmed_results['detectors'] =
trimmed_detectors; trimmed['results'] = trimmed_results`. -/
def trimmedDoc (data : JVal) : JVal :=
  let results := resolveResults data
  let td := (aggregate (detListOf data)).trimmed_detectors
  let trimmedResults :=
    match results with
    | .obj fs => JVal.obj (setKey fs "detectors" (.arr td))
    | _ => JVal.obj [("detectors", .arr td)]
  match data with
  | .obj dfs => JVal.obj (setKey dfs "results" trimmedResults)
  | v => v

/-! ## CSV counts writer -/

/-- Stable insertion into a descending-by-count list: the new element goes
after every element whose count is greater than or equal to its own. -/
def insertDesc (x : JVal × Nat) : List (JVal × Nat) → List (JVal × Nat)
  | [] => [x]
  | y :: ys => if y.2 < x.2 then x :: y :: ys else y :: insertDesc x ys

/-- `Counter.most_common()`: a stable sort by descending count (CPython's
`sorted` is stable, so ties keep the counter's insertion order). -/
def sortDesc (c : List (JVal × Nat)) : List (JVal × Nat) :=
  c.foldl (fun acc x => insertDesc x acc) []

/-- Python `str()` of the values that can appear as CSV fields.  Lists and
dicts are unhashable in Python, so a run that reaches the CSV writer never
has them as counter keys; their rendering here is arbitrary. -/
def pyStr : JVal → String
  | .null => "None"
  | .bool true => "True"
  | .bool false => "False"
  | .num n => toString n
  | .str s => s
  | .arr _ => "<list>"
  | .obj _ => "<dict>"

/-- `freq.most_common(1)[0][0] if freq else ''`. -/
def topField (freq : List (JVal × Nat)) : String :=
  match sortDesc freq with
  | [] => ""
  | p :: _ => pyStr p.1

/-- One CSV data row: `f'"{check}",{cnt},"{top_imp}","{top_conf}"'`.  Note
the `count` field is interpolated without quotes in the script. -/
def csvRowFor (a : Agg) (p : JVal × Nat) : String :=
  "\"" ++ pyStr p.1 ++ "\"," ++ toString p.2 ++ ",\"" ++
    topField (aGetD a.impact_counts p.1 []) ++ "\",\"" ++
    topField (aGetD a.confidence_counts p.1 []) ++ "\""

/-- The CSV artifact as a list of lines: header then one row per category in
`most_common()` order. -/
def csvLines (dets : List JVal) : List String :=
  "check,count,top_impact,top_confidence" ::
    (sortDesc (aggregate dets).counts).map (csvRowFor (aggregate dets))

/-! ## Markdown summary writer -/

/-- The data the Markdown writer prints: `total = sum(counts.values())`,
`len(counts)` unique detectors, `counts.most_common(30)`, and
`list(top_examples.items())[:30]` with up to 3 original findings each. -/
structure MdSummary where
  total : Nat
  unique_detectors : Nat
  top_detectors : List (JVal × Nat)
  representatives : List (JVal × List JVal)
deriving DecidableEq

def mdSummaryOf (dets : List JVal) : MdSummary :=
  let a := aggregate dets
  { total := (a.counts.map (fun p => p.2)).sum
    unique_detectors := a.counts.length
    top_detectors := (sortDesc a.counts).take 30
    representatives := a.top_examples.take 30 }

/-! ## Process model -/

def isObjV : JVal → Bool
  | .obj _ => true
  | _ => false

def isStrV : JVal → Bool
  | .str _ => true
  | _ => false

/-- Values usable as Python dict/Counter keys; lists and dicts raise
`TypeError: unhashable type` when used as keys. -/
def hashableV : JVal → Bool
  | .arr _ => false
  | .obj _ => false
  | _ => true

/-- `elems = det_copy.get('elements') or []` followed by `for e in elems`
with `dict(e)` per element stays exception-free exactly when the truthy
value is a list of dicts. -/
def benignElems (det : JVal) : Bool :=
  let ev := det.pyGet "elements"
  if pyTruthy ev then
    match ev with
    | .arr xs => xs.all isObjV
    | _ => false
  else true

/-- `ex.get('description') or ex.get('markdown') or ''` in the Markdown
writer. -/
def descOf (det : JVal) : JVal :=
  let d := det.pyGet "description"
  if pyTruthy d then d
  else
    let m := det.pyGet "markdown"
    if pyTruthy m then m else .str ""

/-- The tally/trim loop body runs without an exception on this finding:
it is a dict, its resolved check/impact/confidence are hashable, and its
`elements` are benign. -/
def loopSafe (det : JVal) : Bool :=
  isObjV det && hashableV (checkOf det) && hashableV (impactOf det) &&
    hashableV (confidenceOf det) && benignElems det

/-- The Markdown writer calls `.strip()` on each shown representative's
resolved description, so it must be a string. -/
def mdSafe (dets : List JVal) : Bool :=
  (mdSummaryOf dets).representatives.all
    (fun p => p.2.all (fun ex => isStrV (descOf ex)))

/-- `for det in detectors`: what Python iteration yields on each value.
Lists yield their elements, strings their characters, dicts their keys;
other values raise `TypeError`. -/
def pyIterate : JVal → Option (List JVal)
  | .arr xs => some xs
  | .str s => some (s.data.map (fun c => JVal.str (String.singleton c)))
  | .obj fs => some (fs.map (fun p => JVal.str p.1))
  | _ => none

/-- Observable outcome of one run: exit status and the three artifacts
(`None` when the corresponding file was not completely written). -/
structure RunResult where
  exitCode : Nat
  trimmedFile : Option JVal
  csvFile : Option (List String)
  mdFile : Option MdSummary
deriving DecidableEq

/-- The whole script run on a parsed input (`none` = the input file is
absent, exit 2 before reading).  A resolved `None` detectors value exits 0
with no outputs.  An exception in the tally loop (exit 1) happens before any
file is opened; an exception on a representative's description happens in
the Markdown writer, after the trimmed report and the CSV are on disk. -/
def runScript (input : Option JVal) : RunResult :=
  match input with
  | none => ⟨2, none, none, none⟩
  | some data =>
      match resolveDetectors data with
      | .null => ⟨0, none, none, none⟩
      | d =>
          match pyIterate d with
          | none => ⟨1, none, none, none⟩
          | some dets =>
              if dets.all loopSafe then
                if mdSafe dets then
                  ⟨0, some (trimmedDoc data), some (csvLines dets),
                    some (mdSummaryOf dets)⟩
                else ⟨1, some (trimmedDoc data), some (csvLines dets), none⟩
              else ⟨1, none, none, none⟩

/-! ## Structure of the aggregation fold -/

theorem foldl_aggStep_trimmed (dets : List JVal) (a : Agg) :
    (dets.foldl aggStep a).trimmed_detectors =
      a.trimmed_detectors ++ dets.map trimDet := by
  induction dets generalizing a with
  | nil => simp
  | cons d ds ih => simp [List.foldl_cons, ih, aggStep]

theorem foldl_aggStep_counts (dets : List JVal) (a : Agg) :
    (dets.foldl aggStep a).counts =
      dets.foldl (fun c det => cIncr c (checkOf det)) a.counts := by
  induction dets generalizing a with
  | nil => rfl
  | cons d ds ih => simp [List.foldl_cons, ih, aggStep]

theorem foldl_aggStep_tex (dets : List JVal) (a : Agg) :
    (dets.foldl aggStep a).top_examples =
      dets.foldl (fun t det => texUpd t (checkOf det) det) a.top_examples := by
  induction dets generalizing a with
  | nil => rfl
  | cons d ds ih => simp [List.foldl_cons, ih, aggStep]

theorem foldl_aggStep_impacts (dets : List JVal) (a : Agg) :
    (dets.foldl aggStep a).impact_counts =
      dets.foldl (fun t det => ccIncr t (checkOf det) (impactOf det))
        a.impact_counts := by
  induction dets generalizing a with
  | nil => rfl
  | cons d ds ih => simp [List.foldl_cons, ih, aggStep]

theorem aggregate_trimmed_eq_map (dets : List JVal) :
    (aggregate dets).trimmed_detectors = dets.map trimDet := by
  simpa [aggregate] using foldl_aggStep_trimmed dets ⟨[], [], [], [], []⟩

/-- C7: the trimmed findings sequence produced by the pass has the same
length as the input findings list and its `i`-th element is the trim of the
input's `i`-th finding, so the relative order of findings is preserved. -/
theorem trimmed_sequence_length_and_order (dets : List JVal) :
    (aggregate dets).trimmed_detectors.length = dets.length ∧
    ∀ i : Nat, (aggregate dets).trimmed_detectors[i]? =
      dets[i]?.map trimDet := by
  rw [aggregate_trimmed_eq_map]
  constructor
  · simp
  · intro i
    simp [List.getElem?_map]

/-! ## Permutation and sum facts about `most_common` -/

theorem insertDesc_perm (x : JVal × Nat) (l : List (JVal × Nat)) :
    List.Perm (insertDesc x l) (x :: l) := by
  induction l with
  | nil => rfl
  | cons y ys ih =>
      by_cases h : y.2 < x.2
      · simp [insertDesc, h]
      · simp only [insertDesc, h, if_false]
        exact (ih.cons y).trans (List.Perm.swap x y ys)

theorem foldl_insertDesc_perm (l acc : List (JVal × Nat)) :
    List.Perm (l.foldl (fun a x => insertDesc x a) acc) (acc ++ l) := by
  induction l generalizing acc with
  | nil => simp
  | cons x xs ih =>
      refine ((ih (insertDesc x acc)).trans ?_)
      refine ((insertDesc_perm x acc).append_right xs).trans ?_
      exact List.perm_middle.symm

theorem sortDesc_perm (c : List (JVal × Nat)) : List.Perm (sortDesc c) c := by
  simpa [sortDesc] using foldl_insertDesc_perm c []

theorem cIncr_sum (c : List (JVal × Nat)) (k : JVal) :
    ((cIncr c k).map (fun p => p.2)).sum = (c.map (fun p => p.2)).sum + 1 := by
  induction c with
  | nil => simp [cIncr]
  | cons p ps ih =>
      by_cases h : p.1 = k
      · simp [cIncr, h]
        omega
      · simp [cIncr, h, ih]
        omega

theorem countsFold_sum (dets : List JVal) (c : List (JVal × Nat)) :
    ((dets.foldl (fun c det => cIncr c (checkOf det)) c).map
        (fun p => p.2)).sum =
      (c.map (fun p => p.2)).sum + dets.length := by
  induction dets generalizing c with
  | nil => simp
  | cons d ds ih =>
      simp only [List.foldl_cons, ih, cIncr_sum, List.length_cons]
      omega

/-- C3: the total the Markdown summary prints equals the sum of the count
column of the CSV rows (the rows are generated from `most_common()` of the
counts table), and both equal the number of findings in the input. -/
theorem count_conservation (dets : List JVal) :
    (mdSummaryOf dets).total =
      ((sortDesc (aggregate dets).counts).map (fun p => p.2)).sum ∧
    (mdSummaryOf dets).total = dets.length := by
  constructor
  · exact (List.Perm.sum_eq ((sortDesc_perm _).map (fun p => p.2))).symm
  · show ((aggregate dets).counts.map (fun p => p.2)).sum = dets.length
    rw [aggregate, foldl_aggStep_counts]
    simpa using countsFold_sum dets []

/-! ## Association-list facts -/

theorem aGet_eq_none_iff {α : Type} (t : List (JVal × α)) (c : JVal) :
    aGet t c = none ↔ c ∉ t.map Prod.fst := by
  induction t with
  | nil => simp [aGet]
  | cons p ps ih =>
      by_cases h : p.1 = c
      · simp [aGet, h]
      · have h' : ¬ c = p.1 := fun he => h he.symm
        simp [aGet, h, h', ih]

theorem mem_aGet {α : Type} (t : List (JVal × α)) (c : JVal) (l : α)
    (hnd : (t.map Prod.fst).Nodup) (hm : (c, l) ∈ t) : aGet t c = some l := by
  induction t with
  | nil => cases hm
  | cons p ps ih =>
      rcases List.mem_cons.mp hm with h | h
      · subst h; simp [aGet]
      · have hc : c ∈ ps.map Prod.fst :=
          List.mem_map.mpr ⟨(c, l), h, rfl⟩
        have hne : p.1 ≠ c := by
          intro he
          exact ((List.nodup_cons.mp hnd).1 (he ▸ hc))
        simp [aGet, hne, ih (List.nodup_cons.mp hnd).2 h]

theorem aGet_cIncr (t : List (JVal × Nat)) (k c : JVal) :
    aGet (cIncr t k) c =
      if c = k then some (aGetD t k 0 + 1) else aGet t c := by
  induction t with
  | nil =>
      by_cases h : c = k
      · subst h; simp [cIncr, aGet, aGetD]
      · have h' : ¬ k = c := fun he => h he.symm
        simp [cIncr, aGet, aGetD, h, h']
  | cons p ps ih =>
      by_cases hpk : p.1 = k
      · by_cases hck : c = k
        · subst hck
          simp [cIncr, aGet, aGetD, hpk]
        · have hkc : ¬ k = c := fun he => hck he.symm
          simp [cIncr, aGet, aGetD, hpk, hck, hkc]
      · by_cases hpc : p.1 = c
        · have hck : ¬ c = k := fun he => hpk (hpc.trans he)
          simp [cIncr, aGet, aGetD, hpk, hpc, hck]
        · simp [cIncr, aGet, aGetD, hpk, hpc, ih]

theorem cIncr_keys (t : List (JVal × Nat)) (k : JVal) :
    (cIncr t k).map Prod.fst =
      if aGet t k = none then t.map Prod.fst ++ [k] else t.map Prod.fst := by
  induction t with
  | nil => simp [cIncr, aGet]
  | cons p ps ih =>
      by_cases h : p.1 = k <;> simp [cIncr, aGet, h, ih] <;> split <;> simp

theorem cIncr_keys_nodup (t : List (JVal × Nat)) (k : JVal)
    (h : (t.map Prod.fst).Nodup) : ((cIncr t k).map Prod.fst).Nodup := by
  rw [cIncr_keys]
  split
  · rename_i hnone
    have hk : k ∉ t.map Prod.fst := (aGet_eq_none_iff t k).mp hnone
    simp [List.nodup_append, h, hk]
  · exact h

/-- Characterization of the counts table: a category key is present iff the
input contains a finding with that check, and its count is the number of
such findings. -/
theorem counts_char (dets : List JVal) (c : JVal) :
    aGet (aggregate dets).counts c =
      if (dets.filter (fun d => decide (checkOf d = c))).length = 0 then none
      else some (dets.filter (fun d => decide (checkOf d = c))).length := by
  rw [aggregate, foldl_aggStep_counts]
  show aGet (dets.foldl (fun acc det => cIncr acc (checkOf det)) []) c = _
  induction dets using List.reverseRecOn with
  | nil => simp [aGet]
  | append_singleton ds d ih =>
      rw [List.foldl_append, List.foldl_cons, List.foldl_nil, aGet_cIncr,
        List.filter_append]
      by_cases hc : c = checkOf d
      · subst hc
        rw [if_pos rfl]
        have hfd : List.filter (fun x => decide (checkOf x = checkOf d)) [d]
            = [d] := by simp
        rw [hfd]
        simp only [aGetD, ih]
        by_cases h0 :
            (ds.filter (fun x => decide (checkOf x = checkOf d))).length = 0
        · rw [if_pos h0, List.length_eq_zero.mp h0]
          simp
        · rw [if_neg h0,
            if_neg (by simp :
              ¬ ((ds.filter (fun x => decide (checkOf x = checkOf d))) ++
                  [d]).length = 0)]
          simp
      · have hdc : ¬ checkOf d = c := fun he => hc he.symm
        have hfd : List.filter (fun x => decide (checkOf x = c)) [d] = [] := by
          simp [hdc]
        rw [hfd, List.append_nil, if_neg hc, ih]

theorem counts_keys_nodup (dets : List JVal) :
    ((aggregate dets).counts.map Prod.fst).Nodup := by
  rw [aggregate, foldl_aggStep_counts]
  show ((dets.foldl (fun acc det => cIncr acc (checkOf det)) []).map
    Prod.fst).Nodup
  induction dets using List.reverseRecOn with
  | nil => simp
  | append_singleton ds d ih =>
      rw [List.foldl_append, List.foldl_cons, List.foldl_nil]
      exact cIncr_keys_nodup _ _ ih

/-! ## Order and stability of `most_common` -/

theorem insertDesc_mem (z x : JVal × Nat) (l : List (JVal × Nat)) :
    z ∈ insertDesc x l ↔ z = x ∨ z ∈ l := by
  rw [(insertDesc_perm x l).mem_iff]
  simp

theorem insertDesc_sorted (x : JVal × Nat) (l : List (JVal × Nat))
    (h : l.Pairwise (fun a b => b.2 ≤ a.2)) :
    (insertDesc x l).Pairwise (fun a b => b.2 ≤ a.2) := by
  induction l with
  | nil => simp [insertDesc]
  | cons y ys ih =>
      rcases List.pairwise_cons.mp h with ⟨hy, hys⟩
      by_cases hlt : y.2 < x.2
      · simp only [insertDesc, if_pos hlt]
        refine List.pairwise_cons.mpr ⟨?_, h⟩
        intro z hz
        rcases List.mem_cons.mp hz with rfl | hz
        · omega
        · exact le_trans (hy z hz) (le_of_lt hlt)
      · simp only [insertDesc, if_neg hlt]
        refine List.pairwise_cons.mpr ⟨?_, ih hys⟩
        intro z hz
        rcases (insertDesc_mem z x ys).mp hz with rfl | hz
        · omega
        · exact hy z hz

theorem foldl_insertDesc_sorted (l acc : List (JVal × Nat))
    (h : acc.Pairwise (fun a b => b.2 ≤ a.2)) :
    (l.foldl (fun a x => insertDesc x a) acc).Pairwise
      (fun a b => b.2 ≤ a.2) := by
  induction l generalizing acc with
  | nil => exact h
  | cons x xs ih => exact ih _ (insertDesc_sorted x acc h)

theorem sortDesc_sorted (c : List (JVal × Nat)) :
    (sortDesc c).Pairwise (fun a b => b.2 ≤ a.2) :=
  foldl_insertDesc_sorted c [] (by simp)

theorem filter_insertDesc (x : JVal × Nat) (l : List (JVal × Nat)) (n : Nat)
    (h : l.Pairwise (fun a b => b.2 ≤ a.2)) :
    (insertDesc x l).filter (fun p => decide (p.2 = n)) =
      l.filter (fun p => decide (p.2 = n)) ++
        (if x.2 = n then [x] else []) := by
  induction l with
  | nil =>
      by_cases hx : x.2 = n <;> simp [insertDesc, List.filter_cons, hx]
  | cons y ys ih =>
      rcases List.pairwise_cons.mp h with ⟨hy, hys⟩
      by_cases hlt : y.2 < x.2
      · simp only [insertDesc, if_pos hlt]
        by_cases hx : x.2 = n
        · have hnil : (y :: ys).filter (fun p => decide (p.2 = n)) = [] := by
            rw [List.filter_eq_nil]
            intro z hz
            rcases List.mem_cons.mp hz with rfl | hz
            · simp; omega
            · have := hy z hz; simp; omega
          simp [List.filter_cons, hx, hnil]
        · simp [List.filter_cons, hx]
      · simp only [insertDesc, if_neg hlt]
        by_cases hyn : y.2 = n <;>
          simp [List.filter_cons, hyn, ih hys]

theorem foldl_insertDesc_filter (l acc : List (JVal × Nat)) (n : Nat)
    (h : acc.Pairwise (fun a b => b.2 ≤ a.2)) :
    (l.foldl (fun a x => insertDesc x a) acc).filter
        (fun p => decide (p.2 = n)) =
      acc.filter (fun p => decide (p.2 = n)) ++
        l.filter (fun p => decide (p.2 = n)) := by
  induction l generalizing acc with
  | nil => simp
  | cons x xs ih =>
      rw [List.foldl_cons, ih _ (insertDesc_sorted x acc h),
        filter_insertDesc x acc n h, List.filter_cons]
      by_cases hx : x.2 = n <;> simp [hx]

theorem sortDesc_stable (c : List (JVal × Nat)) (n : Nat) :
    (sortDesc c).filter (fun p => decide (p.2 = n)) =
      c.filter (fun p => decide (p.2 = n)) := by
  simpa [sortDesc] using foldl_insertDesc_filter c [] n (by simp)

theorem topField_empty (f : List (JVal × Nat)) (h : f = []) :
    topField f = "" := by
  subst h; rfl

theorem topField_max (f : List (JVal × Nat)) (h : f ≠ []) :
    ∃ m, m ∈ f ∧ topField f = pyStr m.1 ∧ ∀ q ∈ f, q.2 ≤ m.2 := by
  have hperm := sortDesc_perm f
  cases hs : sortDesc f with
  | nil =>
      exact absurd ((hs ▸ hperm).symm.eq_nil) h
  | cons p rest =>
      have hmem : p ∈ f := hperm.mem_iff.mp (hs ▸ List.mem_cons_self p rest)
      refine ⟨p, hmem, ?_, ?_⟩
      · simp [topField, hs]
      · intro q hq
        have hq' : q ∈ sortDesc f := hperm.mem_iff.mpr hq
        rw [hs] at hq'
        rcases List.mem_cons.mp hq' with rfl | hq'
        · exact le_refl _
        · have hsorted := sortDesc_sorted f
          rw [hs] at hsorted
          exact (List.pairwise_cons.mp hsorted).1 q hq'

/-- Modelled from the spec: the CSV row format the claim's words describe,
with every field of the row quoted, including `count`.  Used only to compare
against the row format the script actually emits. -/
def csvRowForClaim (a : Agg) (p : JVal × Nat) : String :=
  "\"" ++ pyStr p.1 ++ "\",\"" ++ toString p.2 ++ "\",\"" ++
    topField (aGetD a.impact_counts p.1 []) ++ "\",\"" ++
    topField (aGetD a.confidence_counts p.1 []) ++ "\""

/-- Modelled from the spec: the CSV output with all-quoted rows. -/
def csvLinesClaim (dets : List JVal) : List String :=
  "check,count,top_impact,top_confidence" ::
    (sortDesc (aggregate dets).counts).map (csvRowForClaim (aggregate dets))

/-- C4 counterexample: for a one-finding report the emitted CSV data row is
`"x",1,"",""` — the count field is interpolated without quotes — so the
output differs from the all-fields-quoted format the claim describes. -/
theorem csv_count_unquoted_cex :
    csvLines [JVal.obj [("check", .str "x")]] =
      ["check,count,top_impact,top_confidence",
        "\"x\",1,\"\",\"\""] ∧
    csvLines [JVal.obj [("check", .str "x")]] ≠
      csvLinesClaim [JVal.obj [("check", .str "x")]] := by
  constructor
  · rfl
  · decide

/-- C4 (amended): the CSV output is the header line followed by one row per
category: the rows are a permutation of the counts table sorted by
descending count, ties keeping the counts table's insertion order
(stability), with pairwise-distinct category keys that are exactly the
categories occurring in the input; each row carries the number of findings
of its category; `top_impact`/`top_confidence` are a most frequent value of
the per-category frequency table ("" for an empty table); and the check,
top_impact and top_confidence fields are quoted while count is unquoted. -/
theorem csv_shape_and_order (dets : List JVal) :
    csvLines dets =
      "check,count,top_impact,top_confidence" ::
        (sortDesc (aggregate dets).counts).map (fun p =>
          "\"" ++ pyStr p.1 ++ "\"," ++ toString p.2 ++ ",\"" ++
            topField (aGetD (aggregate dets).impact_counts p.1 []) ++
            "\",\"" ++
            topField (aGetD (aggregate dets).confidence_counts p.1 []) ++
            "\"") ∧
    List.Perm (sortDesc (aggregate dets).counts) (aggregate dets).counts ∧
    (sortDesc (aggregate dets).counts).Pairwise (fun a b => b.2 ≤ a.2) ∧
    (∀ n : Nat,
      (sortDesc (aggregate dets).counts).filter (fun p => decide (p.2 = n)) =
        (aggregate dets).counts.filter (fun p => decide (p.2 = n))) ∧
    ((sortDesc (aggregate dets).counts).map Prod.fst).Nodup ∧
    (∀ c : JVal,
      c ∈ (sortDesc (aggregate dets).counts).map Prod.fst ↔
        ∃ d ∈ dets, checkOf d = c) ∧
    (∀ p ∈ sortDesc (aggregate dets).counts,
      p.2 = (dets.filter (fun d => decide (checkOf d = p.1))).length) ∧
    (∀ f : List (JVal × Nat), f = [] → topField f = "") ∧
    (∀ f : List (JVal × Nat), f ≠ [] →
      ∃ m, m ∈ f ∧ topField f = pyStr m.1 ∧ ∀ q ∈ f, q.2 ≤ m.2) := by
  refine ⟨rfl, sortDesc_perm _, sortDesc_sorted _, sortDesc_stable _, ?_,
    ?_, ?_, topField_empty, topField_max⟩
  · exact ((sortDesc_perm _).map Prod.fst).nodup_iff.mpr
      (counts_keys_nodup dets)
  · intro c
    rw [List.mem_map]
    constructor
    · rintro ⟨p, hp, rfl⟩
      have hpc : p ∈ (aggregate dets).counts := (sortDesc_perm _).mem_iff.mp hp
      have hsome : aGet (aggregate dets).counts p.1 = some p.2 :=
        mem_aGet _ _ _ (counts_keys_nodup dets) hpc
      rw [counts_char] at hsome
      by_cases h0 :
          (dets.filter (fun d => decide (checkOf d = p.1))).length = 0
      · rw [if_pos h0] at hsome; cases hsome
      · have hne : dets.filter (fun d => decide (checkOf d = p.1)) ≠ [] :=
          fun he => h0 (by simp [he])
        rcases List.exists_mem_of_ne_nil _ hne with ⟨d, hd⟩
        rcases List.mem_filter.mp hd with ⟨hdm, hdc⟩
        exact ⟨d, hdm, of_decide_eq_true hdc⟩
    · rintro ⟨d, hdm, hdc⟩
      have hne : (dets.filter (fun x => decide (checkOf x = c))).length ≠ 0 := by
        intro h0
        have : d ∈ dets.filter (fun x => decide (checkOf x = c)) :=
          List.mem_filter.mpr ⟨hdm, by simp [hdc]⟩
        rw [List.length_eq_zero.mp h0] at this
        cases this
      have : aGet (aggregate dets).counts c =
          some (dets.filter (fun x => decide (checkOf x = c))).length := by
        rw [counts_char, if_neg hne]
      have hmem : c ∈ (aggregate dets).counts.map Prod.fst := by
        by_contra hc
        rw [← aGet_eq_none_iff] at hc
        rw [hc] at this
        cases this
      rcases List.mem_map.mp hmem with ⟨p, hp, hpc⟩
      exact ⟨p, (sortDesc_perm _).mem_iff.mpr hp, hpc⟩
  · intro p hp
    have hpc : p ∈ (aggregate dets).counts := (sortDesc_perm _).mem_iff.mp hp
    have hsome : aGet (aggregate dets).counts p.1 = some p.2 :=
      mem_aGet _ _ _ (counts_keys_nodup dets) hpc
    rw [counts_char] at hsome
    by_cases h0 : (dets.filter (fun d => decide (checkOf d = p.1))).length = 0
    · rw [if_pos h0] at hsome; cases hsome
    · rw [if_neg h0] at hsome
      exact (Option.some.injEq _ _ ▸ hsome).symm

theorem csv_shape_and_order_witness :
    topField ([] : List (JVal × Nat)) = "" ∧
    (∃ m, m ∈ [(JVal.str "High", 2)] ∧
      topField [(JVal.str "High", 2)] = pyStr m.1 ∧
      ∀ q ∈ [(JVal.str "High", 2)], q.2 ≤ m.2) ∧
    (JVal.str "x", 1).2 =
      ([JVal.obj [("check", JVal.str "x")]].filter
        (fun d => decide (checkOf d = (JVal.str "x", 1).1))).length :=
  ⟨(csv_shape_and_order []).2.2.2.2.2.2.2.1 [] rfl,
   (csv_shape_and_order []).2.2.2.2.2.2.2.2 [(JVal.str "High", 2)]
     (by decide),
   (csv_shape_and_order [JVal.obj [("check", JVal.str "x")]]).2.2.2.2.2.2.1
     (JVal.str "x", 1) (by decide)⟩

/-! ## Representatives (`top_examples`) -/

theorem aGet_texUpd (t : List (JVal × List JVal)) (k det c : JVal) :
    aGet (texUpd t k det) c =
      if c = k then
        some (match aGet t k with
          | none => [det]
          | some l => if l.length < 3 then l ++ [det] else l)
      else aGet t c := by
  induction t with
  | nil =>
      by_cases h : c = k
      · subst h; simp [texUpd, aGet]
      · have h' : ¬ k = c := fun he => h he.symm
        simp [texUpd, aGet, h, h']
  | cons p ps ih =>
      by_cases hpk : p.1 = k
      · by_cases hck : c = k
        · subst hck
          simp [texUpd, aGet, hpk]
        · have hkc : ¬ k = c := fun he => hck he.symm
          simp [texUpd, aGet, hpk, hck, hkc]
      · by_cases hpc : p.1 = c
        · have hck : ¬ c = k := fun he => hpk (hpc.trans he)
          simp [texUpd, aGet, hpk, hpc, hck]
        · simp [texUpd, aGet, hpk, hpc, ih]

theorem texUpd_keys (t : List (JVal × List JVal)) (k det : JVal) :
    (texUpd t k det).map Prod.fst =
      if aGet t k = none then t.map Prod.fst ++ [k] else t.map Prod.fst := by
  induction t with
  | nil => simp [texUpd, aGet]
  | cons p ps ih =>
      by_cases h : p.1 = k
      · simp [texUpd, aGet, h]
      · have hstep : texUpd (p :: ps) k det = p :: texUpd ps k det := by
          simp [texUpd, h]
        rw [hstep, List.map_cons, ih]
        have hget : aGet (p :: ps) k = aGet ps k := by
          simp [aGet, h]
        rw [hget]
        split <;> simp

theorem texUpd_keys_nodup (t : List (JVal × List JVal)) (k det : JVal)
    (h : (t.map Prod.fst).Nodup) : ((texUpd t k det).map Prod.fst).Nodup := by
  rw [texUpd_keys]
  split
  · rename_i hnone
    have hk : k ∉ t.map Prod.fst := (aGet_eq_none_iff t k).mp hnone
    simp [List.nodup_append, h, hk]
  · exact h

theorem tex_keys_nodup (dets : List JVal) :
    ((aggregate dets).top_examples.map Prod.fst).Nodup := by
  rw [aggregate, foldl_aggStep_tex]
  show ((dets.foldl (fun t det => texUpd t (checkOf det) det) []).map
    Prod.fst).Nodup
  induction dets using List.reverseRecOn with
  | nil => simp
  | append_singleton ds d ih =>
      rw [List.foldl_append, List.foldl_cons, List.foldl_nil]
      exact texUpd_keys_nodup _ _ _ ih

/-- Characterization of `top_examples`: a category is present iff the input
contains a finding with that check, and its stored examples are exactly the
first (up to) 3 such findings, untrimmed, in input order. -/
theorem tex_char (dets : List JVal) (c : JVal) :
    aGet (aggregate dets).top_examples c =
      if dets.filter (fun d => decide (checkOf d = c)) = [] then none
      else some ((dets.filter (fun d => decide (checkOf d = c))).take 3) := by
  rw [aggregate, foldl_aggStep_tex]
  show aGet (dets.foldl (fun t det => texUpd t (checkOf det) det) []) c = _
  induction dets using List.reverseRecOn with
  | nil => simp [aGet]
  | append_singleton ds d ih =>
      rw [List.foldl_append, List.foldl_cons, List.foldl_nil, aGet_texUpd,
        List.filter_append]
      by_cases hc : c = checkOf d
      · subst hc
        rw [if_pos rfl]
        have hfd : List.filter (fun x => decide (checkOf x = checkOf d)) [d]
            = [d] := by simp
        rw [hfd, ih]
        by_cases h0 : ds.filter (fun x => decide (checkOf x = checkOf d)) = []
        · rw [if_pos h0, h0]
          simp
        · rw [if_neg h0,
            if_neg (by simp :
              ¬ (ds.filter (fun x => decide (checkOf x = checkOf d)) ++ [d])
                = [])]
          set f := ds.filter (fun x => decide (checkOf x = checkOf d)) with hf
          show some (if (List.take 3 f).length < 3
              then List.take 3 f ++ [d] else List.take 3 f) =
            some (List.take 3 (f ++ [d]))
          by_cases h3 : (f.take 3).length < 3
          · have hlen : f.length < 3 := by
              have := List.length_take 3 f
              omega
            have hf3 : f.take 3 = f := List.take_of_length_le (by omega)
            rw [if_pos h3, hf3,
              List.take_of_length_le (by simp [List.length_append]; omega)]
          · have hlen : 3 ≤ f.length := by
              have := List.length_take 3 f
              omega
            rw [if_neg h3, List.take_append_of_le_length hlen]
      · have hdc : ¬ checkOf d = c := fun he => hc he.symm
        have hfd : List.filter (fun x => decide (checkOf x = c)) [d] = [] := by
          simp [hdc]
        rw [hfd, List.append_nil, if_neg hc, ih]

/-- C8: every category entry shown in the Markdown representative section
stores at most 3 findings, and they are exactly the first (up to) 3 findings
of that category in input order, stored untrimmed (they are the original
list elements) and never replaced once 3 are stored. -/
theorem representatives_cap_and_first_three (dets : List JVal) :
    ∀ c l, (c, l) ∈ (mdSummaryOf dets).representatives →
      l.length ≤ 3 ∧
      l = (dets.filter (fun d => decide (checkOf d = c))).take 3 := by
  intro c l hm
  have hm' : (c, l) ∈ (aggregate dets).top_examples := by
    have : (mdSummaryOf dets).representatives =
        (aggregate dets).top_examples.take 30 := rfl
    exact List.mem_of_mem_take (this ▸ hm)
  have hsome := mem_aGet _ _ _ (tex_keys_nodup dets) hm'
  rw [tex_char] at hsome
  by_cases h0 : dets.filter (fun d => decide (checkOf d = c)) = []
  · rw [if_pos h0] at hsome; cases hsome
  · rw [if_neg h0] at hsome
    have hl : l = (dets.filter (fun d => decide (checkOf d = c))).take 3 :=
      (Option.some.inj hsome).symm
    exact ⟨hl ▸ List.length_take_le 3 _, hl⟩

theorem representatives_cap_and_first_three_witness :
    ([JVal.obj [("check", JVal.str "x")]] : List JVal).length ≤ 3 ∧
    [JVal.obj [("check", JVal.str "x")]] =
      ([JVal.obj [("check", JVal.str "x")]].filter
        (fun d => decide (checkOf d = JVal.str "x"))).take 3 :=
  representatives_cap_and_first_three [JVal.obj [("check", JVal.str "x")]]
    (JVal.str "x") [JVal.obj [("check", JVal.str "x")]] (by decide)

/-! ## Dict-update lookup facts -/

theorem objGet_map_replace (ps : List (String × JVal)) (k c : String)
    (v : JVal) (h : ¬ c = k) :
    objGet (ps.map (fun p => if p.1 = k then (p.1, v) else p)) c =
      objGet ps c := by
  induction ps with
  | nil => rfl
  | cons p ps ih =>
      rw [List.map_cons]
      by_cases hp : p.1 = k
      · have hpc : ¬ p.1 = c := fun he => h (he.symm.trans hp)
        rw [if_pos hp]
        simp only [objGet, if_neg hpc]
        exact ih
      · rw [if_neg hp]
        simp only [objGet]
        by_cases hc : p.1 = c
        · rw [if_pos hc, if_pos hc]
        · rw [if_neg hc, if_neg hc]
          exact ih

theorem objGet_setKey (fs : List (String × JVal)) (k c : String) (v : JVal) :
    objGet (setKey fs k v) c = if c = k then v else objGet fs c := by
  rw [setKey]
  by_cases hany : fs.any (fun p => decide (p.1 = k))
  · rw [if_pos hany]
    induction fs with
    | nil => cases hany
    | cons p ps ih =>
        rw [List.map_cons]
        by_cases hp : p.1 = k
        · rw [if_pos hp]
          by_cases hc : c = k
          · subst hc
            simp [objGet, hp]
          · have hpc : ¬ p.1 = c := fun he => hc (he.symm.trans hp)
            simp only [objGet, if_neg hpc, if_neg hc]
            exact objGet_map_replace ps k c v hc
        · rw [if_neg hp]
          have hany' : ps.any (fun p => decide (p.1 = k)) := by
            rcases List.any_eq_true.mp hany with ⟨q, hq, hqk⟩
            rcases List.mem_cons.mp hq with rfl | hq
            · exact absurd (of_decide_eq_true hqk) hp
            · exact List.any_eq_true.mpr ⟨q, hq, hqk⟩
          by_cases hc : p.1 = c
          · have hck : ¬ c = k := fun he => hp (hc.trans he)
            simp only [objGet, if_pos hc, if_neg hck]
          · simp only [objGet, if_neg hc]
            exact ih hany'
  · rw [if_neg hany]
    induction fs with
    | nil =>
        by_cases hc : c = k
        · subst hc
          simp [objGet]
        · have hkc : ¬ k = c := fun he => hc he.symm
          simp [objGet, hkc, hc]
    | cons p ps ih =>
        have hany' : ¬ ps.any (fun p => decide (p.1 = k)) := by
          intro hps
          exact hany (by simp [List.any_cons, hps])
        have hp : ¬ p.1 = k := by
          intro hpk
          exact hany (by simp [List.any_cons, hpk])
        rw [List.cons_append]
        by_cases hc : p.1 = c
        · have hck : ¬ c = k := fun he => hp (hc.trans he)
          simp only [objGet, if_pos hc, if_neg hck]
        · simp only [objGet, if_neg hc]
          exact ih hany'

/-! ## Loader resolution and process behavior -/

/-- Modelled from the spec: the resolution rule the claim describes — an
absent `results` field is treated as an empty record, a mapping `results`
yields its `detectors` field, and a non-mapping `results` (for example a
list, *including an empty list*) is itself the findings collection. -/
def resolveDetectorsClaim (data : JVal) : JVal :=
  match data.pyGet "results" with
  | .null => objGet [] "detectors"
  | .obj fs => objGet fs "detectors"
  | v => v

/-- C5 counterexample: on `{"results": []}` the script's `or {}` swallows
the falsy empty list, so the resolved detectors value is `None` and the run
exits 0 with no outputs, while the claim's rule would make the empty list
itself the findings collection (and the run would then write outputs). -/
theorem loader_empty_list_results_cex :
    resolveDetectors (JVal.obj [("results", JVal.arr [])]) = JVal.null ∧
    resolveDetectorsClaim (JVal.obj [("results", JVal.arr [])]) =
      JVal.arr [] ∧
    resolveDetectors (JVal.obj [("results", JVal.arr [])]) ≠
      resolveDetectorsClaim (JVal.obj [("results", JVal.arr [])]) ∧
    runScript (some (JVal.obj [("results", JVal.arr [])])) =
      ⟨0, none, none, none⟩ := by
  refine ⟨rfl, rfl, ?_, rfl⟩
  decide

/-- C5 (amended): a falsy top-level `results` value (absent/None, but also
an empty list, an empty mapping, an empty string, 0 or False) is replaced by
an empty record, whose missing `detectors` field resolves to None; a truthy
mapping contributes its `detectors` field; a truthy non-mapping is itself
the findings collection; and the run terminates successfully with no output
files exactly when the resolved value is None. -/
theorem loader_resolution (data : JVal) :
    (pyTruthy (data.pyGet "results") = false →
      resolveDetectors data = JVal.null) ∧
    (∀ fs, data.pyGet "results" = JVal.obj fs →
      pyTruthy (data.pyGet "results") = true →
      resolveDetectors data = objGet fs "detectors") ∧
    (pyTruthy (data.pyGet "results") = true →
      (∀ fs, data.pyGet "results" ≠ JVal.obj fs) →
      resolveDetectors data = data.pyGet "results") ∧
    ((runScript (some data)).exitCode = 0 ∧
        (runScript (some data)).trimmedFile = none ∧
        (runScript (some data)).csvFile = none ∧
        (runScript (some data)).mdFile = none ↔
      resolveDetectors data = JVal.null) := by
  refine ⟨?_, ?_, ?_, ?_⟩
  · intro h
    simp [resolveDetectors, resolveResults, h, objGet]
  · intro fs hfs ht
    rw [resolveDetectors, resolveResults, if_pos ht, hfs]
  · intro ht hno
    rw [resolveDetectors, resolveResults, if_pos ht]
    cases hr : data.pyGet "results" with
    | null => rfl
    | bool b => rfl
    | num n => rfl
    | str s => rfl
    | arr xs => rfl
    | obj fs => exact absurd hr (hno fs)
  · cases hd : resolveDetectors data with
    | null => simp [runScript, hd]
    | bool b => simp [runScript, hd, pyIterate]
    | num n => simp [runScript, hd, pyIterate]
    | str s =>
        simp only [runScript, hd, pyIterate]
        split <;> rename_i h1
        · split <;> rename_i h2
          · simp
          · simp
        · simp
    | arr xs =>
        simp only [runScript, hd, pyIterate]
        split <;> rename_i h1
        · split <;> rename_i h2
          · simp
          · simp
        · simp
    | obj fs =>
        simp only [runScript, hd, pyIterate]
        split <;> rename_i h1
        · split <;> rename_i h2
          · simp
          · simp
        · simp

theorem loader_resolution_witness :
    resolveDetectors (JVal.obj []) = JVal.null ∧
    resolveDetectors (JVal.obj [("results",
        JVal.obj [("detectors", JVal.arr [])])]) =
      objGet [("detectors", JVal.arr [])] "detectors" ∧
    resolveDetectors (JVal.obj [("results", JVal.arr [JVal.obj []])]) =
      (JVal.obj [("results", JVal.arr [JVal.obj []])]).pyGet "results" :=
  ⟨(loader_resolution (JVal.obj [])).1 (by decide),
   (loader_resolution _).2.1 [("detectors", JVal.arr [])] rfl (by decide),
   (loader_resolution _).2.2.1 (by decide)
     (fun fs h => JVal.noConfusion
       (show JVal.arr [JVal.obj []] = JVal.obj fs from h))⟩

/-- C9: a missing input file exits 2 writing nothing; a parsed input whose
resolved detectors value is None exits 0 writing nothing; a parsed input
with a located findings list that the tally loop and the Markdown writer
process without an exception exits 0 with all three artifacts written. -/
theorem process_exit_behavior :
    runScript none = ⟨2, none, none, none⟩ ∧
    (∀ data, resolveDetectors data = JVal.null →
      runScript (some data) = ⟨0, none, none, none⟩) ∧
    (∀ data dets, resolveDetectors data = JVal.arr dets →
      dets.all loopSafe = true → mdSafe dets = true →
      runScript (some data) =
        ⟨0, some (trimmedDoc data), some (csvLines dets),
          some (mdSummaryOf dets)⟩) := by
  refine ⟨rfl, ?_, ?_⟩
  · intro data h
    simp [runScript, h]
  · intro data dets h hl hm
    simp [runScript, h, pyIterate, hl, hm]

theorem process_exit_behavior_witness :
    runScript (some (JVal.obj [])) = ⟨0, none, none, none⟩ ∧
    runScript (some (JVal.obj [("results", JVal.obj [("detectors",
        JVal.arr [JVal.obj [("check", JVal.str "x")]])])])) =
      ⟨0,
        some (trimmedDoc (JVal.obj [("results", JVal.obj [("detectors",
          JVal.arr [JVal.obj [("check", JVal.str "x")]])])])),
        some (csvLines [JVal.obj [("check", JVal.str "x")]]),
        some (mdSummaryOf [JVal.obj [("check", JVal.str "x")]])⟩ :=
  ⟨process_exit_behavior.2.1 (JVal.obj []) rfl,
   process_exit_behavior.2.2 _ [JVal.obj [("check", JVal.str "x")]] rfl
     (by decide) (by decide)⟩

/-- C2 counterexample: on `{"results": [{}]}` the Loader takes the list
itself as the findings collection, but the trimmed report nests the trimmed
findings under a fresh `results.detectors` mapping instead of writing them
under `results` as a list, so the output is not shaped like the input. -/
theorem trimmed_results_shape_cex :
    trimmedDoc (JVal.obj [("results", JVal.arr [JVal.obj []])]) =
      JVal.obj [("results", JVal.obj [("detectors",
        JVal.arr [JVal.obj [("elements", JVal.arr [])]])])] ∧
    (trimmedDoc (JVal.obj [("results", JVal.arr [JVal.obj []])])).pyGet
        "results" ≠
      JVal.arr (aggregate (detListOf (JVal.obj [("results",
        JVal.arr [JVal.obj []])]))).trimmed_detectors := by
  constructor
  · rfl
  · decide

/-- C2 (amended): the trimmed report copies every top-level field other than
`results` unchanged, and always places the trimmed findings under
`results.detectors`: a mapping-shaped `results` is reproduced with only its
`detectors` field replaced (its other fields unchanged), while a non-mapping
`results` (e.g. a list) is replaced by a fresh mapping holding only
`detectors` — the input's list shape is not reproduced. -/
theorem trimmed_report_shape (dfs : List (String × JVal)) :
    (∀ k, k ≠ "results" →
      (trimmedDoc (JVal.obj dfs)).pyGet k = (JVal.obj dfs).pyGet k) ∧
    (∀ fs, resolveResults (JVal.obj dfs) = JVal.obj fs →
      (trimmedDoc (JVal.obj dfs)).pyGet "results" =
        JVal.obj (setKey fs "detectors"
          (.arr (aggregate (detListOf (JVal.obj dfs))).trimmed_detectors)) ∧
      ∀ k, k ≠ "detectors" →
        objGet (setKey fs "detectors"
            (.arr (aggregate (detListOf (JVal.obj dfs))).trimmed_detectors))
          k = objGet fs k) ∧
    ((∀ fs, resolveResults (JVal.obj dfs) ≠ JVal.obj fs) →
      (trimmedDoc (JVal.obj dfs)).pyGet "results" =
        JVal.obj [("detectors",
          .arr (aggregate (detListOf (JVal.obj dfs))).trimmed_detectors)]) := by
  refine ⟨?_, ?_, ?_⟩
  · intro k hk
    simp only [trimmedDoc, JVal.pyGet]
    rw [objGet_setKey, if_neg hk]
  · intro fs hfs
    constructor
    · simp only [trimmedDoc, JVal.pyGet, hfs]
      rw [objGet_setKey, if_pos rfl]
    · intro k hk
      rw [objGet_setKey, if_neg hk]
  · intro hno
    simp only [trimmedDoc, JVal.pyGet]
    rw [objGet_setKey, if_pos rfl]

theorem trimmed_report_shape_witness :
    ((trimmedDoc (JVal.obj [("x", JVal.num 1), ("results",
        JVal.obj [("d0", JVal.null), ("detectors", JVal.arr [])])])).pyGet
      "x" =
      (JVal.obj [("x", JVal.num 1), ("results",
        JVal.obj [("d0", JVal.null), ("detectors", JVal.arr [])])]).pyGet
        "x") ∧
    ((trimmedDoc (JVal.obj [("x", JVal.num 1), ("results",
        JVal.obj [("d0", JVal.null), ("detectors", JVal.arr [])])])).pyGet
      "results" =
      JVal.obj (setKey [("d0", JVal.null), ("detectors", JVal.arr [])]
        "detectors"
        (.arr (aggregate (detListOf (JVal.obj [("x", JVal.num 1),
          ("results", JVal.obj [("d0", JVal.null),
            ("detectors", JVal.arr [])])]))).trimmed_detectors))) ∧
    ((trimmedDoc (JVal.obj [("results", JVal.arr [JVal.obj []])])).pyGet
        "results" =
      JVal.obj [("detectors", .arr (aggregate (detListOf
        (JVal.obj [("results",
          JVal.arr [JVal.obj []])]))).trimmed_detectors)]) :=
  ⟨(trimmed_report_shape [("x", JVal.num 1), ("results",
      JVal.obj [("d0", JVal.null), ("detectors", JVal.arr [])])]).1 "x"
      (by decide),
   ((trimmed_report_shape [("x", JVal.num 1), ("results",
      JVal.obj [("d0", JVal.null), ("detectors", JVal.arr [])])]).2.1
      [("d0", JVal.null), ("detectors", JVal.arr [])] rfl).1,
   (trimmed_report_shape [("results", JVal.arr [JVal.obj []])]).2.2
     (fun fs h => JVal.noConfusion
       (show JVal.arr [JVal.obj []] = JVal.obj fs from h))⟩

/-! ## Heap model of the trimming pass (for the no-mutation property)

The value model above cannot express Python's aliasing, and the no-mutation
property is precisely about which objects the loop writes to.  Here dicts
are heap cells addressed by `HVal.ref`: `dict(x)` allocates a fresh cell and
`d[k] = v` writes the addressed cell in place.  Lists stay immutable values
because the loop never mutates an existing list in place (it only builds
fresh ones with `append` and slicing). -/

inductive HVal where
  | null : HVal
  | bool (b : Bool) : HVal
  | num (n : Int) : HVal
  | str (s : String) : HVal
  | arr (elems : List HVal) : HVal
  | ref (a : Nat) : HVal

/-- A dict object: association list of fields, insertion-ordered. -/
abbrev HObj := List (String × HVal)

/-- The heap: cell `a` is the dict at address `a`. -/
abbrev Heap := List HObj

/-- Dereference an address (defaulting for dangling addresses). -/
def heapGet (h : Heap) (a : Nat) : HObj := h[a]?.getD []

/-- Field lookup inside a dict object (`None` when absent). -/
def hLook (o : HObj) (k : String) : HVal :=
  match o with
  | [] => .null
  | p :: ps => if p.1 = k then p.2 else hLook ps k

/-- `v.get(k)` through the heap. -/
def hGet (h : Heap) (v : HVal) (k : String) : HVal :=
  match v with
  | .ref a => hLook (heapGet h a) k
  | _ => .null

/-- `'k' in v` through the heap. -/
def hHasKey (h : Heap) (v : HVal) (k : String) : Bool :=
  match v with
  | .ref a => (heapGet h a).any (fun p => decide (p.1 = k))
  | _ => false

/-- In-place `o[k] = v` on an object's field list. -/
def hSetKey (o : HObj) (k : String) (v : HVal) : HObj :=
  if o.any (fun p => decide (p.1 = k)) then
    o.map (fun p => if p.1 = k then (p.1, v) else p)
  else o ++ [(k, v)]

/-- Allocate a fresh dict cell. -/
def halloc (h : Heap) (o : HObj) : Heap × HVal :=
  (h ++ [o], .ref h.length)

/-- `dict(x)`: a fresh shallow copy (Python raises on non-dicts; here that
case allocates an empty dict). -/
def hDictCopy (h : Heap) (v : HVal) : Heap × HVal :=
  match v with
  | .ref a => halloc h (heapGet h a)
  | _ => halloc h []

/-- `d[k] = x` through a reference: write the addressed cell in place. -/
def hSet (h : Heap) (v : HVal) (k : String) (x : HVal) : Heap :=
  match v with
  | .ref a => h.set a (hSetKey (heapGet h a) k x)
  | _ => h

/-- Python truthiness through the heap (a dict is truthy iff non-empty). -/
def hTruthy (h : Heap) : HVal → Bool
  | .null => false
  | .bool b => b
  | .num n => decide (n ≠ 0)
  | .str s => decide (s ≠ "")
  | .arr xs => !xs.isEmpty
  | .ref a => !(heapGet h a).isEmpty

/-- `isinstance(v, dict)`. -/
def isRef : HVal → Bool
  | .ref _ => true
  | _ => false

/-- `v is None`. -/
def isNullH : HVal → Bool
  | .null => true
  | _ => false

/-- `summarize_lines` in the heap model: the summary record it returns is a
fresh dict. -/
def hSummarizeLines (h : Heap) (v : HVal) : Heap × HVal :=
  match v with
  | .arr xs =>
      if xs.length ≤ 10 then
        halloc h [("count", .num xs.length), ("lines_preview", .arr xs)]
      else
        halloc h [("count", .num xs.length),
          ("first", .arr (xs.take 5)),
          ("last", .arr (xs.drop (xs.length - 5)))]
  | w => (h, w)

/-- The `source_mapping` step of the loop body: when the element copy's
`source_mapping` is a dict whose `lines` is not None, copy it, replace
`lines` by the freshly allocated summary, and store the copy back on the
element copy. -/
def hTrimElemSM (h : Heap) (eC : HVal) : Heap :=
  let sm := hGet h eC "source_mapping"
  if isRef sm then
    let lines := hGet h sm "lines"
    if isNullH lines then h
    else
      let psm := hDictCopy h sm
      let psum := hSummarizeLines psm.1 lines
      let hA := hSet psum.1 psm.2 "lines" psum.2
      hSet hA eC "source_mapping" psm.2
  else h

/-- The nested `type_specific_fields.parent.source_mapping` chain: when it
is made of dicts and the innermost dict has a `lines` key, copy each record
on the path before modifying it, ending with an assignment back onto the
element copy. -/
def hTrimParent (h3 : Heap) (tsf eC : HVal) : Heap :=
  if isRef tsf then
    let parent := hGet h3 tsf "parent"
    if isRef parent then
      let psm0 := hGet h3 parent "source_mapping"
      if isRef psm0 && hHasKey h3 psm0 "lines" then
        let pp := hDictCopy h3 psm0
        let ps := hSummarizeLines pp.1 (hGet pp.1 pp.2 "lines")
        let h4 := hSet ps.1 pp.2 "lines" ps.2
        let pq := hDictCopy h4 parent
        let h5 := hSet pq.1 pq.2 "source_mapping" pp.2
        let pr := hDictCopy h5 tsf
        let h6 := hSet pr.1 pr.2 "parent" pq.2
        hSet h6 eC "type_specific_fields" pr.2
      else h3
    else h3
  else h3

/-- `tsf = e_copy.get('type_specific_fields') or \x7b\x7d` (the `or` allocates a
fresh empty dict when the field is falsy) followed by the nested trimming
chain. -/
def hTrimElemTSF (h : Heap) (eC : HVal) : Heap :=
  let tsf0 := hGet h eC "type_specific_fields"
  let pt := if hTruthy h tsf0 then (h, tsf0) else halloc h []
  hTrimParent pt.1 pt.2 eC

/-- The per-element body of the trimming loop, with Python's reference
semantics: `e_copy = dict(e)` then the two trimming steps in sequence;
every record on the path to a replaced `lines` field is a fresh `dict(...)`
allocation, and only those fresh cells are assigned to. -/
def hTrimElem (h : Heap) (e : HVal) : Heap × HVal :=
  let pc := hDictCopy h e
  (hTrimElemTSF (hTrimElemSM pc.1 pc.2) pc.2, pc.2)

/-- The per-finding body: copy the finding, trim each element, store the new
element list on the copy. -/
def hTrimDet (h : Heap) (det : HVal) : Heap × HVal :=
  let pc := hDictCopy h det
  let h1 := pc.1
  let detC := pc.2
  let ev := hGet h1 detC "elements"
  let elems := if hTruthy h1 ev then ev else HVal.arr []
  let es := match elems with
    | .arr xs => xs
    | _ => ([] : List HVal)
  let pe := es.foldl (fun (acc : Heap × List HVal) e =>
      let pr := hTrimElem acc.1 e
      (pr.1, acc.2 ++ [pr.2])) (h1, ([] : List HVal))
  let hF := hSet pe.1 detC "elements" (HVal.arr pe.2)
  (hF, detC)

/-- The whole trimming pass over the findings. -/
def hTrimDets (h : Heap) (dets : List HVal) : Heap × List HVal :=
  dets.foldl (fun (acc : Heap × List HVal) det =>
      let pr := hTrimDet acc.1 det
      (pr.1, acc.2 ++ [pr.2])) (h, ([] : List HVal))

/-! ### The trimming pass writes only to freshly allocated cells -/

/-- Heap evolution that leaves the first `n` cells untouched. -/
def Frame (n : Nat) (h h' : Heap) : Prop :=
  h.length ≤ h'.length ∧ h'.take n = h.take n

theorem frame_refl (n : Nat) (h : Heap) : Frame n h h := ⟨le_refl _, rfl⟩

theorem frame_trans {n : Nat} {h1 h2 h3 : Heap} (a : Frame n h1 h2)
    (b : Frame n h2 h3) : Frame n h1 h3 :=
  ⟨le_trans a.1 b.1, b.2.trans a.2⟩

theorem take_set_of_le {α : Type} (l : List α) (a n : Nat) (o : α)
    (hna : n ≤ a) : (l.set a o).take n = l.take n := by
  induction l generalizing a n with
  | nil => simp
  | cons x xs ih =>
      cases a with
      | zero =>
          have hz : n = 0 := Nat.le_zero.mp hna
          subst hz
          simp
      | succ a =>
          cases n with
          | zero => simp
          | succ n =>
              rw [List.set_cons_succ, List.take_succ_cons, List.take_succ_cons,
                ih a n (Nat.le_of_succ_le_succ hna)]

theorem frame_alloc {n : Nat} {h : Heap} (o : HObj) (hn : n ≤ h.length) :
    Frame n h (halloc h o).1 := by
  refine ⟨by simp [halloc], ?_⟩
  simp only [halloc]
  exact List.take_append_of_le_length hn

theorem frame_dictCopy {n : Nat} {h : Heap} (v : HVal) (hn : n ≤ h.length) :
    Frame n h (hDictCopy h v).1 := by
  cases v <;> exact frame_alloc _ hn

theorem hDictCopy_snd (h : Heap) (v : HVal) :
    (hDictCopy h v).2 = HVal.ref h.length := by
  cases v <;> rfl

theorem frame_summarize {n : Nat} {h : Heap} (v : HVal) (hn : n ≤ h.length) :
    Frame n h (hSummarizeLines h v).1 := by
  cases v with
  | arr xs =>
      by_cases hl : xs.length ≤ 10 <;>
        simp only [hSummarizeLines, hl, if_true, if_false, reduceIte] <;>
        exact frame_alloc _ hn
  | null => exact frame_refl _ _
  | bool b => exact frame_refl _ _
  | num m => exact frame_refl _ _
  | str s => exact frame_refl _ _
  | ref a => exact frame_refl _ _

theorem frame_hSet {n : Nat} {h : Heap} (a : Nat) (k : String) (x : HVal)
    (hna : n ≤ a) : Frame n h (hSet h (.ref a) k x) := by
  refine ⟨by simp [hSet], ?_⟩
  simp only [hSet]
  exact take_set_of_le h a n _ hna

theorem frame_hSet' (n : Nat) (h : Heap) (v : HVal) (k : String) (x : HVal)
    (hv : ∀ a, v = HVal.ref a → n ≤ a) : Frame n h (hSet h v k x) := by
  cases v with
  | ref a => exact frame_hSet a k x (hv a rfl)
  | null => exact frame_refl _ _
  | bool b => exact frame_refl _ _
  | num m => exact frame_refl _ _
  | str s => exact frame_refl _ _
  | arr xs => exact frame_refl _ _

theorem hTrimElemSM_frame (h : Heap) (eC : HVal) (n : Nat)
    (hn : n ≤ h.length) (haddr : ∀ a, eC = HVal.ref a → n ≤ a) :
    Frame n h (hTrimElemSM h eC) := by
  simp only [hTrimElemSM]
  split
  · split
    · exact frame_refl n h
    · have f1 : Frame n h (hDictCopy h (hGet h eC "source_mapping")).1 :=
        frame_dictCopy _ hn
      have f2 := frame_summarize
        (h := (hDictCopy h (hGet h eC "source_mapping")).1)
        (hGet h (hGet h eC "source_mapping") "lines")
        (le_trans hn f1.1)
      have f3 := frame_hSet'
        (h := (hSummarizeLines (hDictCopy h (hGet h eC "source_mapping")).1
          (hGet h (hGet h eC "source_mapping") "lines")).1)
        n (hDictCopy h (hGet h eC "source_mapping")).2 "lines"
        (hSummarizeLines (hDictCopy h (hGet h eC "source_mapping")).1
          (hGet h (hGet h eC "source_mapping") "lines")).2
        (fun a ha => by
          rw [hDictCopy_snd] at ha
          injection ha with ha'
          omega)
      have f4 := frame_hSet'
        (h := hSet (hSummarizeLines
            (hDictCopy h (hGet h eC "source_mapping")).1
            (hGet h (hGet h eC "source_mapping") "lines")).1
          (hDictCopy h (hGet h eC "source_mapping")).2 "lines"
          (hSummarizeLines (hDictCopy h (hGet h eC "source_mapping")).1
            (hGet h (hGet h eC "source_mapping") "lines")).2)
        n eC "source_mapping"
        (hDictCopy h (hGet h eC "source_mapping")).2 haddr
      exact frame_trans (frame_trans (frame_trans f1 f2) f3) f4
  · exact frame_refl n h

theorem hTrimParent_frame (h3 : Heap) (tsf eC : HVal) (n : Nat)
    (hn : n ≤ h3.length) (haddr : ∀ a, eC = HVal.ref a → n ≤ a) :
    Frame n h3 (hTrimParent h3 tsf eC) := by
  simp only [hTrimParent]
  split
  · split
    · split
      · set P := hGet h3 tsf "parent" with hP
        set M := hGet h3 P "source_mapping" with hM
        set pp := hDictCopy h3 M with hpp
        set ps := hSummarizeLines pp.1 (hGet pp.1 pp.2 "lines") with hps
        set h4 := hSet ps.1 pp.2 "lines" ps.2 with hh4
        set pq := hDictCopy h4 P with hpq
        set h5 := hSet pq.1 pq.2 "source_mapping" pp.2 with hh5
        set pr := hDictCopy h5 tsf with hpr
        set h6 := hSet pr.1 pr.2 "parent" pq.2 with hh6
        have f1 : Frame n h3 pp.1 := by
          rw [hpp]; exact frame_dictCopy M hn
        have l1 : n ≤ pp.1.length := le_trans hn f1.1
        have f2 : Frame n pp.1 ps.1 := by
          rw [hps]; exact frame_summarize _ l1
        have l2 : n ≤ ps.1.length := le_trans l1 f2.1
        have haddr_pp : ∀ a, pp.2 = HVal.ref a → n ≤ a := by
          intro a ha
          rw [hpp, hDictCopy_snd] at ha
          injection ha with ha'
          omega
        have f3 : Frame n ps.1 h4 := by
          rw [hh4]; exact frame_hSet' n ps.1 pp.2 "lines" ps.2 haddr_pp
        have l3 : n ≤ h4.length := le_trans l2 f3.1
        have f4 : Frame n h4 pq.1 := by
          rw [hpq]; exact frame_dictCopy P l3
        have l4 : n ≤ pq.1.length := le_trans l3 f4.1
        have haddr_pq : ∀ a, pq.2 = HVal.ref a → n ≤ a := by
          intro a ha
          rw [hpq, hDictCopy_snd] at ha
          injection ha with ha'
          omega
        have f5 : Frame n pq.1 h5 := by
          rw [hh5]
          exact frame_hSet' n pq.1 pq.2 "source_mapping" pp.2 haddr_pq
        have l5 : n ≤ h5.length := le_trans l4 f5.1
        have f6 : Frame n h5 pr.1 := by
          rw [hpr]; exact frame_dictCopy tsf l5
        have l6 : n ≤ pr.1.length := le_trans l5 f6.1
        have haddr_pr : ∀ a, pr.2 = HVal.ref a → n ≤ a := by
          intro a ha
          rw [hpr, hDictCopy_snd] at ha
          injection ha with ha'
          omega
        have f7 : Frame n pr.1 h6 := by
          rw [hh6]
          exact frame_hSet' n pr.1 pr.2 "parent" pq.2 haddr_pr
        have f8 : Frame n h6 (hSet h6 eC "type_specific_fields" pr.2) :=
          frame_hSet' n h6 eC "type_specific_fields" pr.2 haddr
        exact frame_trans (frame_trans (frame_trans (frame_trans
          (frame_trans (frame_trans (frame_trans f1 f2) f3) f4) f5) f6) f7) f8
      · exact frame_refl n h3
    · exact frame_refl n h3
  · exact frame_refl n h3

theorem hTrimElemTSF_frame (h : Heap) (eC : HVal) (n : Nat)
    (hn : n ≤ h.length) (haddr : ∀ a, eC = HVal.ref a → n ≤ a) :
    Frame n h (hTrimElemTSF h eC) := by
  simp only [hTrimElemTSF]
  split
  · exact hTrimParent_frame h _ eC n hn haddr
  · refine frame_trans (frame_alloc [] hn)
      (hTrimParent_frame (halloc h []).1 (halloc h []).2 eC n ?_ haddr)
    refine le_trans hn ?_
    simp [halloc]

theorem hTrimElem_frame (h : Heap) (e : HVal) (n : Nat) (hn : n ≤ h.length) :
    Frame n h (hTrimElem h e).1 := by
  have haddr : ∀ a, (hDictCopy h e).2 = HVal.ref a → n ≤ a := by
    intro a ha
    rw [hDictCopy_snd] at ha
    injection ha with ha'
    omega
  have f1 : Frame n h (hDictCopy h e).1 := frame_dictCopy e hn
  have f2 : Frame n (hDictCopy h e).1
      (hTrimElemSM (hDictCopy h e).1 (hDictCopy h e).2) :=
    hTrimElemSM_frame _ _ n (le_trans hn f1.1) haddr
  have f3 : Frame n (hTrimElemSM (hDictCopy h e).1 (hDictCopy h e).2)
      (hTrimElemTSF (hTrimElemSM (hDictCopy h e).1 (hDictCopy h e).2)
        (hDictCopy h e).2) :=
    hTrimElemTSF_frame _ _ n (le_trans (le_trans hn f1.1) f2.1) haddr
  exact frame_trans (frame_trans f1 f2) f3

theorem hTrimLoop_frame (es : List HVal) (acc : Heap × List HVal) (n : Nat)
    (hn : n ≤ acc.1.length) :
    Frame n acc.1
      (es.foldl (fun acc e =>
        let pr := hTrimElem acc.1 e
        (pr.1, acc.2 ++ [pr.2])) acc).1 := by
  induction es generalizing acc with
  | nil => exact frame_refl _ _
  | cons e es ih =>
      have f1 := hTrimElem_frame acc.1 e n hn
      have f2 := ih ((hTrimElem acc.1 e).1, acc.2 ++ [(hTrimElem acc.1 e).2])
        (le_trans hn f1.1)
      exact frame_trans f1 f2

theorem hTrimDet_frame (h : Heap) (det : HVal) (n : Nat)
    (hn : n ≤ h.length) : Frame n h (hTrimDet h det).1 := by
  simp only [hTrimDet]
  have f1 : Frame n h (hDictCopy h det).1 := frame_dictCopy det hn
  have f2 := hTrimLoop_frame
    (match (if hTruthy (hDictCopy h det).1
          (hGet (hDictCopy h det).1 (hDictCopy h det).2 "elements")
        then hGet (hDictCopy h det).1 (hDictCopy h det).2 "elements"
        else HVal.arr []) with
      | .arr xs => xs
      | _ => ([] : List HVal))
    ((hDictCopy h det).1, ([] : List HVal)) n (le_trans hn f1.1)
  have haddr : ∀ a, (hDictCopy h det).2 = HVal.ref a → n ≤ a := by
    intro a ha
    rw [hDictCopy_snd] at ha
    injection ha with ha'
    omega
  refine frame_trans (frame_trans f1 f2) ?_
  exact frame_hSet' n _ (hDictCopy h det).2 "elements" _ haddr

theorem hTrimDetsLoop_frame (dets : List HVal) (acc : Heap × List HVal)
    (n : Nat) (hn : n ≤ acc.1.length) :
    Frame n acc.1
      (dets.foldl (fun acc det =>
        let pr := hTrimDet acc.1 det
        (pr.1, acc.2 ++ [pr.2])) acc).1 := by
  induction dets generalizing acc with
  | nil => exact frame_refl _ _
  | cons det dets ih =>
      have f1 := hTrimDet_frame acc.1 det n hn
      have f2 := ih ((hTrimDet acc.1 det).1, acc.2 ++ [(hTrimDet acc.1 det).2])
        (le_trans hn f1.1)
      exact frame_trans f1 f2

theorem hTrimDets_frame (h : Heap) (dets : List HVal) :
    Frame h.length h (hTrimDets h dets).1 :=
  hTrimDetsLoop_frame dets (h, []) h.length (le_refl _)

/-- C10: the trimming pass never mutates the input document or any Finding
in it: every heap cell that existed before the pass holds exactly the same
record afterwards (each record on the path to a replaced `lines` field is
copied before modification and only the fresh copies are written), so the
original findings — including the representatives the Markdown summary
keeps — still carry their raw, untrimmed `lines` lists after the pass. -/
theorem trim_pass_no_mutation (h : Heap) (dets : List HVal) :
    (hTrimDets h dets).1.take h.length = h ∧
    h.length ≤ (hTrimDets h dets).1.length ∧
    ∀ a, a < h.length →
      (hTrimDets h dets).1[a]? = h[a]? ∧
      ∀ k, hGet (hTrimDets h dets).1 (.ref a) k = hGet h (.ref a) k := by
  have hf := hTrimDets_frame h dets
  have htake : (hTrimDets h dets).1.take h.length = h := by
    rw [hf.2, List.take_length]
  refine ⟨htake, hf.1, ?_⟩
  intro a ha
  have hgetq : (hTrimDets h dets).1[a]? = h[a]? := by
    have h1 : ((hTrimDets h dets).1.take h.length)[a]? =
        (hTrimDets h dets).1[a]? := List.getElem?_take_of_lt ha
    rw [← h1, htake]
  exact ⟨hgetq, fun k => by simp [hGet, heapGet, hgetq]⟩

/-- A concrete three-cell input heap: an element (cell 0) pointing at a
source mapping (cell 1) with a 12-entry `lines` list, and a finding
(cell 2) holding that element. -/
def witnessHeap : Heap :=
  [[("source_mapping", HVal.ref 1)],
   [("lines", HVal.arr ((List.range 12).map fun i => HVal.num i))],
   [("check", HVal.str "x"), ("elements", HVal.arr [HVal.ref 0])]]

def witnessDets : List HVal := [HVal.ref 2]

theorem trim_pass_no_mutation_witness :
    (hTrimDets witnessHeap witnessDets).1[1]? = witnessHeap[1]? ∧
    ∀ k, hGet (hTrimDets witnessHeap witnessDets).1 (.ref 1) k =
      hGet witnessHeap (.ref 1) k :=
  (trim_pass_no_mutation witnessHeap witnessDets).2.2 1 (by decide)
